import Mathlib

/-!
Verification of the workflow_builder_project repository.

The repository's visible source is the FastAPI glue file
`backend/main.py`; the workflow execution engine (registry, validator,
scheduler, execution context, node runner, orchestrator) is described by
the specification only.  Engine definitions below are therefore modelled
from the spec; the HTTP-layer definitions are translated from
`backend/main.py`.

Node identifiers are modelled as natural numbers; component type names,
input names and output names as strings.
-/

namespace WorkflowBuilder

/-- Modelled from the spec: `NodeState` enumeration
PENDING, READY, RUNNING, SUCCEEDED, FAILED, SKIPPED (§3).  Only the
states observable in a final run result matter for the sequential
embedding: PENDING before processing and the three terminal states. -/
inductive NodeState where
  | PENDING
  | READY
  | RUNNING
  | SUCCEEDED
  | FAILED
  | SKIPPED
deriving DecidableEq, Repr

/-- Modelled from the spec: overall run status SUCCEEDED / FAILED /
PARTIAL (§3 RunResult).  The third constructor is the spec's PARTIAL. -/
inductive RunStatus where
  | SUCCEEDED
  | FAILED
  | PARTIAL_RESULT
deriving DecidableEq, Repr

/-- Boolean test that a node's recorded state is SUCCEEDED. -/
def isSucceeded (states : Nat → NodeState) (d : Nat) : Bool :=
  decide (states d = NodeState.SUCCEEDED)

/-- Modelled from the spec: one orchestrator step (§4.6, steps 2-4).
A node is dispatched only when all of its upstream dependencies are
SUCCEEDED; the runner outcome (abstracted by the oracle `succ`) then
decides SUCCEEDED or FAILED.  A node with a non-SUCCEEDED dependency is
marked SKIPPED (partial-failure propagation: a failed node's output is
never available, so anything that needs it cannot run). -/
def runStep (deps : Nat → List Nat) (succ : Nat → Bool)
    (states : Nat → NodeState) (n : Nat) : Nat → NodeState :=
  fun m =>
    if m = n then
      if (deps n).all (isSucceeded states) then
        if succ n then NodeState.SUCCEEDED else NodeState.FAILED
      else NodeState.SKIPPED
    else states m

/-- Modelled from the spec: the orchestrator loop (§4.6) processing the
scheduler's execution order left to right, threading the per-node state
map of the ExecutionContext. -/
def runNodes (deps : Nat → List Nat) (succ : Nat → Bool)
    (states : Nat → NodeState) : List Nat → (Nat → NodeState)
  | [] => states
  | n :: rest => runNodes deps succ (runStep deps succ states n) rest

/-- Modelled from the spec: a complete run of a workflow.  All nodes
start PENDING (§4.6 step 1); the order is the scheduler's execution
order. -/
def executeWorkflow (deps : Nat → List Nat) (succ : Nat → Bool)
    (order : List Nat) : Nat → NodeState :=
  runNodes deps succ (fun _ => NodeState.PENDING) order

/-- `appearsBefore l a b` holds when some occurrence of `a` in `l`
strictly precedes some occurrence of `b`. -/
def appearsBefore : List Nat → Nat → Nat → Bool
  | [], _, _ => false
  | x :: xs, a, b => (decide (x = a) && xs.contains b) || appearsBefore xs a b

/-- A topological execution order for a dependency map: no duplicates,
and every dependency of a listed node appears strictly before it. -/
def Topo (deps : Nat → List Nat) (order : List Nat) : Prop :=
  order.Nodup ∧ ∀ n ∈ order, ∀ d ∈ deps n, appearsBefore order d n = true

/-- `DependsOn deps n f`: node `n` transitively depends on node `f`
(there is a non-empty chain of declared-input edges from `n` down to
`f`); `f` is a transitive ancestor of `n`, equivalently `n` is a
transitive dependent (downstream node) of `f`. -/
inductive DependsOn (deps : Nat → List Nat) : Nat → Nat → Prop
  | direct {n d : Nat} : d ∈ deps n → DependsOn deps n d
  | trans {n d f : Nat} : d ∈ deps n → DependsOn deps d f → DependsOn deps n f

theorem appearsBefore_mem_right :
    ∀ (l : List Nat) (a b : Nat), appearsBefore l a b = true → b ∈ l := by
  intro l
  induction l with
  | nil => intro a b h; exact absurd h (by simp [appearsBefore])
  | cons x xs ih =>
    intro a b h
    simp only [appearsBefore, Bool.or_eq_true, Bool.and_eq_true] at h
    rcases h with ⟨_, hb⟩ | h2
    · exact List.mem_cons_of_mem x (List.elem_iff.mp hb)
    · exact List.mem_cons_of_mem x (ih a b h2)

theorem appearsBefore_mem_left :
    ∀ (l : List Nat) (a b : Nat), appearsBefore l a b = true → a ∈ l := by
  intro l
  induction l with
  | nil => intro a b h; exact absurd h (by simp [appearsBefore])
  | cons x xs ih =>
    intro a b h
    simp only [appearsBefore, Bool.or_eq_true, Bool.and_eq_true,
      decide_eq_true_eq] at h
    rcases h with ⟨hx, _⟩ | h2
    · exact hx ▸ List.mem_cons_self x xs
    · exact List.mem_cons_of_mem x (ih a b h2)

theorem list_all_ext {p q : Nat → Bool} :
    ∀ (l : List Nat), (∀ x ∈ l, p x = q x) → l.all p = l.all q := by
  intro l
  induction l with
  | nil => intro _; rfl
  | cons x xs ih =>
    intro h
    simp only [List.all_cons]
    rw [h x (List.mem_cons_self x xs), ih (fun y hy => h y (List.mem_cons_of_mem x hy))]

/-- Nodes not in the processed list keep their state. -/
theorem runNodes_not_mem (deps : Nat → List Nat) (succ : Nat → Bool) :
    ∀ (l : List Nat) (states : Nat → NodeState) (m : Nat), m ∉ l →
      runNodes deps succ states l m = states m := by
  intro l
  induction l with
  | nil => intro states m _; rfl
  | cons n rest ih =>
    intro states m hm
    have hmn : m ≠ n := fun h => hm (h ▸ List.mem_cons_self n rest)
    have hmr : m ∉ rest := fun h => hm (List.mem_cons_of_mem n h)
    simp only [runNodes]
    rw [ih _ m hmr]
    simp [runStep, hmn]

/-- Final-state characterization: in a duplicate-free list where every
dependency of `n` either occurs strictly before `n` or does not occur at
all, the final state of `n` is computed from the final states of its
dependencies. -/
theorem runNodes_final (deps : Nat → List Nat) (succ : Nat → Bool) :
    ∀ (l : List Nat) (states : Nat → NodeState) (n : Nat),
      l.Nodup → n ∈ l →
      (∀ d ∈ deps n, appearsBefore l d n = true ∨ d ∉ l) →
      runNodes deps succ states l n =
        (if (deps n).all (isSucceeded (runNodes deps succ states l)) then
          (if succ n then NodeState.SUCCEEDED else NodeState.FAILED)
        else NodeState.SKIPPED) := by
  intro l
  induction l with
  | nil => intro states n _ hn; exact absurd hn (List.not_mem_nil n)
  | cons m rest ih =>
    intro states n hnd hn hdeps
    have hmrest : m ∉ rest := (List.nodup_cons.mp hnd).1
    have hndrest : rest.Nodup := (List.nodup_cons.mp hnd).2
    by_cases hnm : n = m
    · -- head case: every dependency of n is absent from the whole list
      subst hnm
      have hdeps' : ∀ d ∈ deps n, d ∉ n :: rest := by
        intro d hd
        rcases hdeps d hd with hb | habs
        · exfalso
          simp only [appearsBefore, Bool.or_eq_true, Bool.and_eq_true] at hb
          rcases hb with ⟨_, hcon⟩ | h2
          · exact hmrest (List.elem_iff.mp hcon)
          · exact hmrest (appearsBefore_mem_right rest d n h2)
        · exact habs
      simp only [runNodes]
      have hfinal : ∀ d ∈ deps n,
          runNodes deps succ (runStep deps succ states n) rest d = states d := by
        intro d hd
        have hdn : d ∉ n :: rest := hdeps' d hd
        have hdrest : d ∉ rest := fun h => hdn (List.mem_cons_of_mem n h)
        have hdne : d ≠ n := fun h => hdn (h ▸ List.mem_cons_self n rest)
        rw [runNodes_not_mem deps succ rest _ d hdrest]
        simp [runStep, hdne]
      rw [runNodes_not_mem deps succ rest _ n hmrest]
      have hcond : (deps n).all (isSucceeded states) =
          (deps n).all
            (isSucceeded (runNodes deps succ (runStep deps succ states n) rest)) := by
        apply list_all_ext
        intro d hd
        simp only [isSucceeded]
        rw [hfinal d hd]
      simp only [runStep, if_pos rfl]
      rw [hcond]
      simp
    · -- tail case
      have hnrest : n ∈ rest := by
        rcases List.mem_cons.mp hn with h | h
        · exact absurd h hnm
        · exact h
      have hdeps' : ∀ d ∈ deps n, appearsBefore rest d n = true ∨ d ∉ rest := by
        intro d hd
        rcases hdeps d hd with hb | habs
        · simp only [appearsBefore, Bool.or_eq_true, Bool.and_eq_true,
            decide_eq_true_eq] at hb
          rcases hb with ⟨hmd, _⟩ | h2
          · exact Or.inr (hmd ▸ hmrest)
          · exact Or.inl h2
        · exact Or.inr (fun h => habs (List.mem_cons_of_mem m h))
      simp only [runNodes]
      exact ih (runStep deps succ states m) n hndrest hnrest hdeps'

theorem appearsBefore_indexOf_lt :
    ∀ (l : List Nat) (a b : Nat), l.Nodup → appearsBefore l a b = true →
      l.indexOf a < l.indexOf b := by
  intro l
  induction l with
  | nil => intro a b _ h; exact absurd h (by simp [appearsBefore])
  | cons x xs ih =>
    intro a b hnd h
    have hxxs : x ∉ xs := (List.nodup_cons.mp hnd).1
    simp only [appearsBefore, Bool.or_eq_true, Bool.and_eq_true,
      decide_eq_true_eq] at h
    rcases h with ⟨hxa, hb⟩ | h2
    · have hbxs : b ∈ xs := List.elem_iff.mp hb
      have hbx : x ≠ b := fun hxb => hxxs (hxb ▸ hbxs)
      rw [List.indexOf_cons_eq xs hxa, List.indexOf_cons_ne xs hbx]
      exact Nat.succ_pos _
    · have hbxs : b ∈ xs := appearsBefore_mem_right xs a b h2
      have hbx : x ≠ b := fun hxb => hxxs (hxb ▸ hbxs)
      by_cases hxa : x = a
      · rw [List.indexOf_cons_eq xs hxa, List.indexOf_cons_ne xs hbx]
        exact Nat.succ_pos _
      · rw [List.indexOf_cons_ne xs hxa, List.indexOf_cons_ne xs hbx]
        exact Nat.succ_lt_succ (ih a b (List.nodup_cons.mp hnd).2 h2)

/-- `runNodes_final` restated for a complete run under a topological
order. -/
theorem executeWorkflow_final (deps : Nat → List Nat) (succ : Nat → Bool)
    (order : List Nat) (n : Nat) (htopo : Topo deps order) (hn : n ∈ order) :
    executeWorkflow deps succ order n =
      (if (deps n).all (isSucceeded (executeWorkflow deps succ order)) then
        (if succ n then NodeState.SUCCEEDED else NodeState.FAILED)
      else NodeState.SKIPPED) :=
  runNodes_final deps succ order (fun _ => NodeState.PENDING) n htopo.1 hn
    (fun d hmem => Or.inl (htopo.2 n hn d hmem))

/-- A node with a dependency whose final state is not SUCCEEDED finishes
SKIPPED. -/
theorem final_skipped_of_bad_dep (deps : Nat → List Nat) (succ : Nat → Bool)
    (order : List Nat) (htopo : Topo deps order) (n d : Nat) (hn : n ∈ order)
    (hd : d ∈ deps n)
    (hbad : executeWorkflow deps succ order d ≠ NodeState.SUCCEEDED) :
    executeWorkflow deps succ order n = NodeState.SKIPPED := by
  rw [executeWorkflow_final deps succ order n htopo hn]
  cases hcase : (deps n).all (isSucceeded (executeWorkflow deps succ order)) with
  | false => simp
  | true =>
    exfalso
    have hh := List.all_eq_true.mp hcase d hd
    simp only [isSucceeded, decide_eq_true_eq] at hh
    exact hbad hh

/-- Skip propagation: under a topological order, a node that transitively
depends on a node whose final state is not SUCCEEDED finishes SKIPPED. -/
theorem final_skipped_of_bad_ancestor (deps : Nat → List Nat) (succ : Nat → Bool)
    (order : List Nat) (htopo : Topo deps order) :
    ∀ (n f : Nat), DependsOn deps n f → n ∈ order →
      executeWorkflow deps succ order f ≠ NodeState.SUCCEEDED →
      executeWorkflow deps succ order n = NodeState.SKIPPED := by
  intro n f hdep
  induction hdep with
  | direct hd =>
    rename_i n' d'
    intro hn hf
    exact final_skipped_of_bad_dep deps succ order htopo n' d' hn hd hf
  | trans hd hdep ihd =>
    rename_i n' d' f'
    intro hn hf
    have hdord : d' ∈ order := appearsBefore_mem_left order d' n' (htopo.2 n' hn d' hd)
    have hdskip := ihd hdord hf
    apply final_skipped_of_bad_dep deps succ order htopo n' d' hn hd
    rw [hdskip]
    intro hcontra
    exact NodeState.noConfusion hcontra

/-- Branch isolation: a node whose own execution succeeds and all of
whose transitive ancestors' executions succeed finishes SUCCEEDED,
whatever happens elsewhere in the graph. -/
theorem final_succeeded_of_ok_branch (deps : Nat → List Nat) (succ : Nat → Bool)
    (order : List Nat) (htopo : Topo deps order) :
    ∀ (k n : Nat), order.indexOf n = k → n ∈ order → succ n = true →
      (∀ f, DependsOn deps n f → succ f = true) →
      executeWorkflow deps succ order n = NodeState.SUCCEEDED := by
  intro k
  induction k using Nat.strong_induction_on with
  | _ k ih =>
    intro n hidx hn hsucc hanc
    rw [executeWorkflow_final deps succ order n htopo hn]
    have hall : (deps n).all (isSucceeded (executeWorkflow deps succ order)) = true := by
      apply List.all_eq_true.mpr
      intro d hd
      have hb : appearsBefore order d n = true := htopo.2 n hn d hd
      have hdord : d ∈ order := appearsBefore_mem_left order d n hb
      have hlt : order.indexOf d < k := hidx ▸ appearsBefore_indexOf_lt order d n htopo.1 hb
      have hdsucc : succ d = true := hanc d (DependsOn.direct hd)
      have hdanc : ∀ f, DependsOn deps d f → succ f = true :=
        fun f hf => hanc f (DependsOn.trans hd hf)
      have := ih (order.indexOf d) hlt d rfl hdord hdsucc hdanc
      simp only [isSucceeded, decide_eq_true_eq]
      exact this
    rw [hall]
    simp [hsucc]

/-- Modelled from the spec: the ready test of Kahn's algorithm (§4.3) —
a node is ready when every upstream dependency is already resolved.
`pickReady` returns the first ready node in declaration order (ties among
ready nodes are broken by original declaration order in the NodeSpec
sequence). -/
def pickReady (deps : Nat → List Nat) (done : List Nat) : List Nat → Option Nat
  | [] => none
  | n :: rest =>
    if (deps n).all (fun d => done.contains d) then some n
    else pickReady deps done rest

/-- Modelled from the spec: the emission loop of Kahn's algorithm (§4.3).
`done` is the list of already emitted nodes (their dependencies count as
resolved); `remaining` the nodes not yet emitted.  The fuel bounds the
number of emissions; when no node is ready the loop stops. -/
def kahnAux (deps : Nat → List Nat) : Nat → List Nat → List Nat → List Nat
  | 0, _, _ => []
  | fuel + 1, done, remaining =>
    match pickReady deps done remaining with
    | none => []
    | some n => n :: kahnAux deps fuel (done ++ [n]) (remaining.erase n)

/-- Modelled from the spec: the Scheduler's emitted execution order
(§4.3, Kahn's algorithm over the declaration-ordered node sequence). -/
def schedule (deps : Nat → List Nat) (nodes : List Nat) : List Nat :=
  kahnAux deps nodes.length [] nodes

theorem pickReady_spec (deps : Nat → List Nat) (done : List Nat) :
    ∀ (l : List Nat) (n : Nat), pickReady deps done l = some n →
      n ∈ l ∧ (deps n).all (fun d => done.contains d) = true := by
  intro l
  induction l with
  | nil => intro n h; exact absurd h (by simp [pickReady])
  | cons m rest ih =>
    intro n h
    simp only [pickReady] at h
    by_cases hc : (deps m).all (fun d => done.contains d) = true
    · rw [if_pos hc] at h
      have hnm : m = n := Option.some.inj h
      exact ⟨hnm ▸ List.mem_cons_self m rest, hnm ▸ hc⟩
    · rw [if_neg hc] at h
      have := ih n h
      exact ⟨List.mem_cons_of_mem m this.1, this.2⟩

theorem kahnAux_subset (deps : Nat → List Nat) :
    ∀ (fuel : Nat) (done remaining : List Nat) (m : Nat),
      m ∈ kahnAux deps fuel done remaining → m ∈ remaining := by
  intro fuel
  induction fuel with
  | zero => intro done remaining m h; exact absurd h (List.not_mem_nil m)
  | succ fuel ih =>
    intro done remaining m h
    simp only [kahnAux] at h
    cases hp : pickReady deps done remaining with
    | none => rw [hp] at h; exact absurd h (List.not_mem_nil m)
    | some n =>
      rw [hp] at h
      rcases List.mem_cons.mp h with hmn | hmtail
      · exact hmn ▸ (pickReady_spec deps done remaining n hp).1
      · exact List.mem_of_mem_erase (ih (done ++ [n]) (remaining.erase n) m hmtail)

theorem kahnAux_nodup (deps : Nat → List Nat) :
    ∀ (fuel : Nat) (done remaining : List Nat), remaining.Nodup →
      (kahnAux deps fuel done remaining).Nodup := by
  intro fuel
  induction fuel with
  | zero => intro done remaining _; exact List.nodup_nil
  | succ fuel ih =>
    intro done remaining hnd
    simp only [kahnAux]
    cases hp : pickReady deps done remaining with
    | none => exact List.nodup_nil
    | some n =>
      apply List.nodup_cons.mpr
      constructor
      · intro hmem
        have : n ∈ remaining.erase n :=
          kahnAux_subset deps fuel (done ++ [n]) (remaining.erase n) n hmem
        rw [hnd.mem_erase_iff] at this
        exact this.1 rfl
      · exact ih (done ++ [n]) (remaining.erase n) (hnd.erase n)

theorem kahnAux_deps_resolved (deps : Nat → List Nat) :
    ∀ (fuel : Nat) (done remaining : List Nat) (n : Nat),
      n ∈ kahnAux deps fuel done remaining → ∀ d ∈ deps n,
        d ∈ done ∨ appearsBefore (kahnAux deps fuel done remaining) d n = true := by
  intro fuel
  induction fuel with
  | zero => intro done remaining n h; exact absurd h (List.not_mem_nil n)
  | succ fuel ih =>
    intro done remaining n h d hd
    simp only [kahnAux] at h ⊢
    cases hp : pickReady deps done remaining with
    | none => rw [hp] at h; exact absurd h (List.not_mem_nil n)
    | some m =>
      rw [hp] at h
      by_cases hnm : n = m
      · subst hnm
        have hall := (pickReady_spec deps done remaining n hp).2
        have := List.all_eq_true.mp hall d hd
        exact Or.inl (List.elem_iff.mp this)
      · have htail : n ∈ kahnAux deps fuel (done ++ [m]) (remaining.erase m) := by
          rcases List.mem_cons.mp h with hcontra | ht
          · exact absurd hcontra hnm
          · exact ht
        rcases ih (done ++ [m]) (remaining.erase m) n htail d hd with hdone | hb
        · rcases List.mem_append.mp hdone with h1 | h2
          · exact Or.inl h1
          · -- d = m: the head of the emitted list, which precedes n
            have hdm : d = m := by
              rcases List.mem_cons.mp h2 with h3 | h4
              · exact h3
              · exact absurd h4 (List.not_mem_nil d)
            apply Or.inr
            simp only [appearsBefore, Bool.or_eq_true, Bool.and_eq_true]
            exact Or.inl ⟨by simp [hdm], List.elem_iff.mpr htail⟩
        · apply Or.inr
          simp only [appearsBefore, Bool.or_eq_true]
          exact Or.inr hb

/-- The Scheduler's emitted order for a duplicate-free node sequence is a
topological order. -/
theorem schedule_topological (deps : Nat → List Nat) (nodes : List Nat)
    (hnd : nodes.Nodup) : Topo deps (schedule deps nodes) := by
  constructor
  · exact kahnAux_nodup deps nodes.length [] nodes hnd
  · intro n hn d hd
    rcases kahnAux_deps_resolved deps nodes.length [] nodes n hn d hd with h | h
    · exact absurd h (List.not_mem_nil d)
    · exact h

/-- Modelled from the spec: the sink (leaf) nodes of the dependency
graph — nodes no other node depends on (§4.6 step 5). -/
def sinks (deps : Nat → List Nat) (order : List Nat) : List Nat :=
  order.filter (fun n => order.all (fun m => !((deps m).contains n)))

/-- Modelled from the spec: overall run status (§4.6 step 5) — SUCCEEDED
iff all nodes SUCCEEDED; FAILED iff every sink node is FAILED or SKIPPED;
otherwise PARTIAL. -/
def overallStatus (deps : Nat → List Nat) (order : List Nat)
    (st : Nat → NodeState) : RunStatus :=
  if order.all (isSucceeded st) then RunStatus.SUCCEEDED
  else if (sinks deps order).all
      (fun n => decide (st n = NodeState.FAILED) || decide (st n = NodeState.SKIPPED)) then
    RunStatus.FAILED
  else RunStatus.PARTIAL_RESULT

/-- Concrete scenario from the spec's testable properties: a chain
A→B→C (nodes 0→1→2) plus an independent node D (node 3). -/
def chainDeps : Nat → List Nat :=
  fun n => if n = 1 then [0] else if n = 2 then [1] else []

/-- Runner oracle for the scenario: every node's own execution succeeds
except node 1 (B), which fails. -/
def chainSucc : Nat → Bool := fun n => decide (n ≠ 1)

/-- Modelled from the spec: a declared input of a NodeSpec — either an
edge {source_node_id, source_output_name} or a literal value (§3). -/
inductive InputBinding where
  | edge (source_node_id : Nat) (source_output_name : String)
  | literal (value : String)
deriving DecidableEq, Repr

/-- Modelled from the spec: NodeSpec (§3). -/
structure NodeSpec where
  node_id : Nat
  component_type : String
  literal_config : List (String × String)
  declared_inputs : List (String × InputBinding)
deriving DecidableEq, Repr

/-- Modelled from the spec: WorkflowDefinition (§3); edges are implicit
in `declared_inputs`. -/
structure WorkflowDefinition where
  id : Nat
  name : String
  nodes : List NodeSpec
deriving DecidableEq, Repr

/-- Modelled from the spec: one entry of a component's input schema —
input name plus required flag (§3). -/
structure InputSchemaEntry where
  input_name : String
  required : Bool
deriving DecidableEq, Repr

/-- Modelled from the spec: ComponentDescriptor (§3). -/
structure ComponentDescriptor where
  type_name : String
  input_schema : List InputSchemaEntry
  output_schema : List String
deriving DecidableEq, Repr

/-- Modelled from the spec: the Component Registry's read-only state
after startup — a sequence of registered descriptors (§4.1). -/
abbrev Registry := List ComponentDescriptor

/-- Modelled from the spec: `resolve(type_name)` returns the registered
descriptor, if any (§4.1). -/
def resolve (reg : Registry) (t : String) : Option ComponentDescriptor :=
  reg.find? (fun c => c.type_name == t)

/-- Modelled from the spec: the validation violation taxonomy (§4.2). -/
inductive Violation where
  | UnknownComponentType (node_id : Nat)
  | DanglingEdge (node_id : Nat) (input_name : String)
  | MissingRequiredInput (node_id : Nat) (input_name : String)
  | CyclicDependency (cycle_path : List Nat)
deriving DecidableEq, Repr

/-- The node_ids of a definition, in declaration order. -/
def nodeIds (wf : WorkflowDefinition) : List Nat :=
  wf.nodes.map (fun n => n.node_id)

/-- Modelled from the spec: validator check 1 — every component_type
resolves in the Registry, else UnknownComponentType(node_id) (§4.2). -/
def checkComponentTypes (reg : Registry) (wf : WorkflowDefinition) : List Violation :=
  wf.nodes.filterMap (fun n =>
    if (resolve reg n.component_type).isNone then
      some (Violation.UnknownComponentType n.node_id)
    else none)

/-- Modelled from the spec: an edge binding dangles when its
source_node_id is no existing node, or the source node's (resolvable)
component has no such output name (§4.2 check 2).  An unresolvable
source component type is check 1's violation, not a dangling edge. -/
def edgeDangles (reg : Registry) (wf : WorkflowDefinition) (b : InputBinding) : Bool :=
  match b with
  | InputBinding.literal _ => false
  | InputBinding.edge src outName =>
    match wf.nodes.find? (fun m => m.node_id == src) with
    | none => true
    | some m =>
      match resolve reg m.component_type with
      | none => false
      | some desc => !(desc.output_schema.contains outName)

/-- Modelled from the spec: validator check 2 — every declared edge
refers to an existing node and output, else DanglingEdge(node_id,
input_name) (§4.2). -/
def checkDanglingEdges (reg : Registry) (wf : WorkflowDefinition) : List Violation :=
  wf.nodes.flatMap (fun n =>
    n.declared_inputs.filterMap (fun p =>
      if edgeDangles reg wf p.2 then some (Violation.DanglingEdge n.node_id p.1)
      else none))

/-- An input name is satisfied when it is bound in declared_inputs
(edge or literal) or in literal_config (§4.2 check 3). -/
def inputSatisfied (n : NodeSpec) (iname : String) : Bool :=
  (n.declared_inputs.map Prod.fst).contains iname ||
    (n.literal_config.map Prod.fst).contains iname

/-- Modelled from the spec: validator check 3 — every required input per
the descriptor's input_schema is satisfied by an edge or a literal, else
MissingRequiredInput(node_id, input_name) (§4.2). -/
def checkRequiredInputs (reg : Registry) (wf : WorkflowDefinition) : List Violation :=
  wf.nodes.flatMap (fun n =>
    match resolve reg n.component_type with
    | none => []
    | some desc =>
      desc.input_schema.filterMap (fun e =>
        if e.required && !(inputSatisfied n e.input_name) then
          some (Violation.MissingRequiredInput n.node_id e.input_name)
        else none))

/-- Modelled from the spec: the dependency map induced by
declared_inputs — the declared edge sources of a node, restricted to
existing nodes (§3 EdgeSpec, §9: the Validator materializes the edge set
on demand; edges to non-existent nodes are check 2's violation). -/
def inducedDeps (wf : WorkflowDefinition) : Nat → List Nat :=
  fun i =>
    match wf.nodes.find? (fun m => m.node_id == i) with
    | none => []
    | some m =>
      m.declared_inputs.filterMap (fun p =>
        match p.2 with
        | InputBinding.edge src _ =>
          if (nodeIds wf).contains src then some src else none
        | InputBinding.literal _ => none)

/-- Modelled from the spec: depth-first traversal over a node's
children, threading the visited (black) set; the visiting (gray) set is
the current `path` (§4.2 check 4). -/
def dfsChildren (visit : List Nat → List Nat → Nat → Except (List Nat) (List Nat)) :
    List Nat → List Nat → List Nat → Except (List Nat) (List Nat)
  | _, done, [] => Except.ok done
  | path, done, m :: ms =>
    match visit path done m with
    | Except.error p => Except.error p
    | Except.ok done2 => dfsChildren visit path done2 ms

/-- Modelled from the spec: cycle detection via depth-first traversal
keeping a visiting (`path`) and visited (`done`) marker set; on revisit
of a node still visiting, report the cycle path (§4.2 check 4).  The
fuel bounds recursion depth; exhaustion is treated as a failed
traversal. -/
def dfsVisit (adj : Nat → List Nat) : Nat → List Nat → List Nat → Nat →
    Except (List Nat) (List Nat)
  | 0, _, _, _ => Except.error []
  | fuel + 1, path, done, n =>
    if done.contains n then Except.ok done
    else if path.contains n then Except.error (path ++ [n])
    else
      match dfsChildren (dfsVisit adj fuel) (n :: path) done (adj n) with
      | Except.error p => Except.error p
      | Except.ok done2 => Except.ok (n :: done2)

/-- Runs the depth-first traversal from every root in declaration order;
returns the first reported cycle path, if any. -/
def detectCycle (adj : Nat → List Nat) (roots : List Nat) : Option (List Nat) :=
  match dfsChildren (dfsVisit adj (roots.length + 1)) [] [] roots with
  | Except.error p => some p
  | Except.ok _ => none

/-- Modelled from the spec: validator check 4 — the induced dependency
graph is acyclic, else CyclicDependency(cycle_path) (§4.2). -/
def checkCycles (wf : WorkflowDefinition) : List Violation :=
  match detectCycle (inducedDeps wf) (nodeIds wf) with
  | some p => [Violation.CyclicDependency p]
  | none => []

/-- Modelled from the spec: the validator accumulates all violations of
the four checks, in order (§4.2: exhaustive, not fail-fast). -/
def collectViolations (reg : Registry) (wf : WorkflowDefinition) : List Violation :=
  checkComponentTypes reg wf ++ checkDanglingEdges reg wf ++
    checkRequiredInputs reg wf ++ checkCycles wf

/-- Modelled from the spec: a validated, immutable ExecutionPlan — the
nodes plus the resolved dependency edges (§4.2). -/
structure ExecutionPlan where
  planNodes : List NodeSpec
  depEdges : List (Nat × Nat)
deriving DecidableEq, Repr

/-- The resolved dependency edge set (source, target). -/
def buildPlan (wf : WorkflowDefinition) : ExecutionPlan :=
  { planNodes := wf.nodes,
    depEdges := (nodeIds wf).flatMap (fun n => (inducedDeps wf n).map (fun d => (d, n))) }

/-- Modelled from the spec: the Graph Validator — an ExecutionPlan when
no violation is found, otherwise a ValidationError carrying the full
violation list; if any violation is found, no ExecutionPlan is produced
(§4.2). -/
def validate (reg : Registry) (wf : WorkflowDefinition) :
    Except (List Violation) ExecutionPlan :=
  match collectViolations reg wf with
  | [] => Except.ok (buildPlan wf)
  | v :: vs => Except.error (v :: vs)

/-- Modelled from the spec: RunResult (§3) — run id, overall status and
the per-node terminal states. -/
structure RunResult where
  run_id : Nat
  overall_status : RunStatus
  node_states : List (Nat × NodeState)
deriving DecidableEq, Repr

/-- Modelled from the spec: the full pipeline Validator → Scheduler →
Orchestrator (§2, §4.6); a ValidationError blocks the run entirely, so
the run never starts. -/
def runWorkflow (reg : Registry) (wf : WorkflowDefinition) (succ : Nat → Bool)
    (rid : Nat) : Except (List Violation) RunResult :=
  match validate reg wf with
  | Except.error vs => Except.error vs
  | Except.ok _ =>
    let order := schedule (inducedDeps wf) (nodeIds wf)
    let st := executeWorkflow (inducedDeps wf) succ order
    Except.ok
      { run_id := rid,
        overall_status := overallStatus (inducedDeps wf) order st,
        node_states := order.map (fun n => (n, st n)) }

/-- Invariant of the visited (black) set of the depth-first traversal:
every visited node has all of its children visited and lies on no
cycle. -/
def Safe (adj : Nat → List Nat) (done : List Nat) : Prop :=
  ∀ m ∈ done, (∀ d ∈ adj m, d ∈ done) ∧ ¬DependsOn adj m m

theorem safe_closed (adj : Nat → List Nat) (S : List Nat) (hS : Safe adj S) :
    ∀ (m k : Nat), DependsOn adj m k → m ∈ S → k ∈ S := by
  intro m k hdep
  induction hdep with
  | direct hd =>
    rename_i n' d'
    intro hm
    exact (hS n' hm).1 d' hd
  | trans hd hdep ih =>
    rename_i n' d' f'
    intro hm
    exact ih ((hS n' hm).1 d' hd)

/-- The post-condition a single visit call must satisfy on success. -/
def VisitInv (adj : Nat → List Nat)
    (visit : List Nat → List Nat → Nat → Except (List Nat) (List Nat)) : Prop :=
  ∀ (path done : List Nat) (n : Nat) (done2 : List Nat),
    Safe adj done → visit path done n = Except.ok done2 →
    Safe adj done2 ∧ (∀ x ∈ done, x ∈ done2) ∧ n ∈ done2 ∧
      (∀ x ∈ done2, x ∈ done ∨ x ∉ path)

theorem dfsChildren_inv (adj : Nat → List Nat)
    (visit : List Nat → List Nat → Nat → Except (List Nat) (List Nat))
    (hv : VisitInv adj visit) :
    ∀ (ms path done done2 : List Nat), Safe adj done →
      dfsChildren visit path done ms = Except.ok done2 →
      Safe adj done2 ∧ (∀ x ∈ done, x ∈ done2) ∧ (∀ m ∈ ms, m ∈ done2) ∧
        (∀ x ∈ done2, x ∈ done ∨ x ∉ path) := by
  intro ms
  induction ms with
  | nil =>
    intro path done done2 hS h
    have hd2 : done = done2 := Except.ok.inj h
    subst hd2
    exact ⟨hS, fun x hx => hx, fun m hm => absurd hm (List.not_mem_nil m),
      fun x hx => Or.inl hx⟩
  | cons m ms ih =>
    intro path done done2 hS h
    simp only [dfsChildren] at h
    cases hvisit : visit path done m with
    | error p => rw [hvisit] at h; exact absurd h (by simp)
    | ok d1 =>
      rw [hvisit] at h
      obtain ⟨hS1, hsub1, hm1, hnew1⟩ := hv path done m d1 hS hvisit
      obtain ⟨hS2, hsub2, hms2, hnew2⟩ := ih path d1 done2 hS1 h
      refine ⟨hS2, fun x hx => hsub2 x (hsub1 x hx), ?_, ?_⟩
      · intro m' hm'
        rcases List.mem_cons.mp hm' with hem | htail
        · exact hem ▸ hsub2 m hm1
        · exact hms2 m' htail
      · intro x hx
        rcases hnew2 x hx with hxd1 | hxpath
        · exact hnew1 x hxd1
        · exact Or.inr hxpath

theorem dfsVisit_inv (adj : Nat → List Nat) :
    ∀ (fuel : Nat), VisitInv adj (dfsVisit adj fuel) := by
  intro fuel
  induction fuel with
  | zero =>
    intro path done n done2 _ h
    exact absurd h (by simp [dfsVisit])
  | succ fuel ih =>
    intro path done n done2 hS h
    simp only [dfsVisit] at h
    by_cases h1 : done.contains n = true
    · rw [if_pos h1] at h
      have hd2 : done = done2 := Except.ok.inj h
      subst hd2
      exact ⟨hS, fun x hx => hx, List.elem_iff.mp h1, fun x hx => Or.inl hx⟩
    · rw [if_neg h1] at h
      by_cases h2 : path.contains n = true
      · rw [if_pos h2] at h
        exact absurd h (by simp)
      · rw [if_neg h2] at h
        cases hch : dfsChildren (dfsVisit adj fuel) (n :: path) done (adj n) with
        | error p => rw [hch] at h; exact absurd h (by simp)
        | ok dc =>
          rw [hch] at h
          have hd2 : n :: dc = done2 := Except.ok.inj h
          subst hd2
          obtain ⟨hSc, hsubc, hadjc, hnewc⟩ :=
            dfsChildren_inv adj (dfsVisit adj fuel) ih (adj n) (n :: path) done dc hS hch
          have hndone : n ∉ done := fun hmem => h1 (List.elem_iff.mpr hmem)
          have hnpath : n ∉ path := fun hmem => h2 (List.elem_iff.mpr hmem)
          have hndc : n ∉ dc := by
            intro hmem
            rcases hnewc n hmem with hd | hp
            · exact hndone hd
            · exact hp (List.mem_cons_self n path)
          refine ⟨?_, fun x hx => List.mem_cons_of_mem n (hsubc x hx),
            List.mem_cons_self n dc, ?_⟩
          · intro m' hm'
            rcases List.mem_cons.mp hm' with hem | htail
            · subst hem
              refine ⟨fun d hd => List.mem_cons_of_mem m' (hadjc d hd), ?_⟩
              intro hcyc
              cases hcyc with
              | direct hd => exact hndc (hadjc m' hd)
              | trans hd hdep =>
                rename_i d'
                have hddc : d' ∈ dc := hadjc d' hd
                exact hndc (safe_closed adj dc hSc d' m' hdep hddc)
            · refine ⟨fun d hd => List.mem_cons_of_mem n ((hSc m' htail).1 d hd),
                (hSc m' htail).2⟩
          · intro x hx
            rcases List.mem_cons.mp hx with hxn | hxdc
            · exact Or.inr (hxn ▸ hnpath)
            · rcases hnewc x hxdc with hxdone | hxnp
              · exact Or.inl hxdone
              · exact Or.inr (fun hxp => hxnp (List.mem_cons_of_mem n hxp))

/-- Completeness of cycle detection: if the traversal reports no cycle,
no root lies on a cycle. -/
theorem detectCycle_none_acyclic (adj : Nat → List Nat) (roots : List Nat)
    (h : detectCycle adj roots = none) : ∀ n ∈ roots, ¬DependsOn adj n n := by
  intro n hn
  unfold detectCycle at h
  cases hch : dfsChildren (dfsVisit adj (roots.length + 1)) [] [] roots with
  | error p => rw [hch] at h; exact absurd h (by simp)
  | ok dfinal =>
    have hempty : Safe adj [] := fun m hm => absurd hm (List.not_mem_nil m)
    obtain ⟨hSf, _, hroots, _⟩ :=
      dfsChildren_inv adj (dfsVisit adj (roots.length + 1))
        (dfsVisit_inv adj (roots.length + 1)) roots [] [] dfinal hempty hch
    exact (hSf n (hroots n hn)).2

theorem checkCycles_of_cycle (wf : WorkflowDefinition)
    (h : ∃ n, n ∈ nodeIds wf ∧ DependsOn (inducedDeps wf) n n) :
    ∃ p, checkCycles wf = [Violation.CyclicDependency p] := by
  obtain ⟨n, hn, hcyc⟩ := h
  cases hd : detectCycle (inducedDeps wf) (nodeIds wf) with
  | none => exact absurd hcyc (detectCycle_none_acyclic _ _ hd n hn)
  | some p => exact ⟨p, by simp [checkCycles, hd]⟩

theorem checkComponentTypes_complete (reg : Registry) (wf : WorkflowDefinition) :
    ∀ n ∈ wf.nodes, resolve reg n.component_type = none →
      Violation.UnknownComponentType n.node_id ∈ checkComponentTypes reg wf := by
  intro n hn hres
  apply List.mem_filterMap.mpr
  exact ⟨n, hn, by simp [hres]⟩

theorem checkDanglingEdges_complete (reg : Registry) (wf : WorkflowDefinition) :
    ∀ n ∈ wf.nodes, ∀ p ∈ n.declared_inputs, edgeDangles reg wf p.2 = true →
      Violation.DanglingEdge n.node_id p.1 ∈ checkDanglingEdges reg wf := by
  intro n hn p hp hdang
  apply List.mem_flatMap.mpr
  exact ⟨n, hn, List.mem_filterMap.mpr ⟨p, hp, by simp [hdang]⟩⟩

theorem checkRequiredInputs_complete (reg : Registry) (wf : WorkflowDefinition) :
    ∀ n ∈ wf.nodes, ∀ desc, resolve reg n.component_type = some desc →
      ∀ e ∈ desc.input_schema, e.required = true →
      inputSatisfied n e.input_name = false →
      Violation.MissingRequiredInput n.node_id e.input_name ∈
        checkRequiredInputs reg wf := by
  intro n hn desc hres e he hreq hsat
  apply List.mem_flatMap.mpr
  refine ⟨n, hn, ?_⟩
  rw [hres]
  exact List.mem_filterMap.mpr ⟨e, he, by simp [hreq, hsat]⟩

theorem validate_error_of_violations (reg : Registry) (wf : WorkflowDefinition)
    (h : collectViolations reg wf ≠ []) :
    validate reg wf = Except.error (collectViolations reg wf) := by
  unfold validate
  cases hc : collectViolations reg wf with
  | nil => exact absurd hc h
  | cons v vs => rfl

theorem validate_cases (reg : Registry) (wf : WorkflowDefinition) :
    validate reg wf = Except.ok (buildPlan wf) ∨
      validate reg wf = Except.error (collectViolations reg wf) := by
  unfold validate
  cases hc : collectViolations reg wf with
  | nil => exact Or.inl rfl
  | cons v vs => exact Or.inr rfl

theorem runWorkflow_error_of_validate (reg : Registry) (wf : WorkflowDefinition)
    (succ : Nat → Bool) (rid : Nat) (vs : List Violation)
    (h : validate reg wf = Except.error vs) :
    runWorkflow reg wf succ rid = Except.error vs := by
  unfold runWorkflow
  rw [h]

/-- Modelled from the spec: the trace of nodes actually dispatched to
the Node Runner — exactly those whose upstream dependencies were all
SUCCEEDED when reached (§4.6 steps 2-3). -/
def runTrace (deps : Nat → List Nat) (succ : Nat → Bool) :
    (Nat → NodeState) → List Nat → List Nat
  | _, [] => []
  | states, n :: rest =>
    if (deps n).all (isSucceeded states) then
      n :: runTrace deps succ (runStep deps succ states n) rest
    else
      runTrace deps succ (runStep deps succ states n) rest

/-- Boolean test for the three terminal node states. -/
def isTerminal (s : NodeState) : Bool :=
  decide (s = NodeState.SUCCEEDED) || decide (s = NodeState.FAILED) ||
    decide (s = NodeState.SKIPPED)

theorem runTrace_sublist (deps : Nat → List Nat) (succ : Nat → Bool) :
    ∀ (l : List Nat) (states : Nat → NodeState),
      (runTrace deps succ states l).Sublist l := by
  intro l
  induction l with
  | nil => intro states; exact List.Sublist.refl []
  | cons n rest ih =>
    intro states
    simp only [runTrace]
    by_cases hc : (deps n).all (isSucceeded states) = true
    · rw [if_pos hc]
      exact List.Sublist.cons₂ n (ih (runStep deps succ states n))
    · rw [if_neg hc]
      exact List.Sublist.cons n (ih (runStep deps succ states n))

theorem runNodes_terminal (deps : Nat → List Nat) (succ : Nat → Bool) :
    ∀ (l : List Nat) (states : Nat → NodeState) (n : Nat), n ∈ l →
      isTerminal (runNodes deps succ states l n) = true := by
  intro l
  induction l with
  | nil => intro states n hn; exact absurd hn (List.not_mem_nil n)
  | cons m rest ih =>
    intro states n hn
    by_cases hr : n ∈ rest
    · simp only [runNodes]
      exact ih _ n hr
    · have hnm : n = m := by
        rcases List.mem_cons.mp hn with h | h
        · exact h
        · exact absurd h hr
      subst hnm
      simp only [runNodes]
      rw [runNodes_not_mem deps succ rest _ n hr]
      simp only [runStep, if_pos rfl]
      by_cases hc : (deps n).all (isSucceeded states) = true
      · rw [if_pos hc]
        by_cases hs : succ n = true
        · rw [if_pos hs]; rfl
        · rw [if_neg hs]; rfl
      · rw [if_neg hc]; rfl

theorem map_pair_filter_fst (f : Nat → NodeState) :
    ∀ (l : List Nat) (n : Nat), l.Nodup → n ∈ l →
      ((l.map (fun m => (m, f m))).filter (fun p => p.1 == n)).length = 1 := by
  intro l
  induction l with
  | nil => intro n _ hn; exact absurd hn (List.not_mem_nil n)
  | cons m rest ih =>
    intro n hnd hn
    have hmrest : m ∉ rest := (List.nodup_cons.mp hnd).1
    simp only [List.map_cons, List.filter_cons]
    by_cases hmn : m = n
    · subst hmn
      simp only [beq_self_eq_true, if_pos]
      have hzero :
          ((rest.map (fun m' => (m', f m'))).filter (fun p => p.1 == m)).length = 0 := by
        rw [List.length_eq_zero]
        apply List.filter_eq_nil_iff.mpr
        intro p hp
        obtain ⟨m', hm', hpe⟩ := List.mem_map.mp hp
        subst hpe
        simp only [beq_iff_eq]
        intro hc
        exact hmrest (hc ▸ hm')
      simp [hzero]
    · have hne : (m == n) = false := beq_eq_false_iff_ne.mpr hmn
      rw [hne]
      simp only [Bool.false_eq_true, if_neg]
      have hnrest : n ∈ rest := by
        rcases List.mem_cons.mp hn with h | h
        · exact absurd h.symm hmn
        · exact h
      exact ih n (List.nodup_cons.mp hnd).2 hnrest

/-- Modelled from the spec: ExecutionContext — per-run mutable state
(§3); outputs and node states as association lists. -/
structure ExecutionContext where
  run_id : Nat
  workflow_id : Nat
  node_states : List (Nat × NodeState)
  outputs : List (Nat × List (String × String))
deriving DecidableEq, Repr

/-- Modelled from the spec: the Execution Context error taxonomy
(§4.4). -/
inductive ContextError where
  | DuplicateWrite
  | UnresolvedInput
deriving DecidableEq, Repr

/-- Modelled from the spec: `set_output(node_id, output)` — records a
node's output at most once per node_id, failing with DuplicateWrite on
any subsequent call for the same node_id (§4.4, §5 first-writer-wins
guard). -/
def set_output (ctx : ExecutionContext) (node_id : Nat)
    (output : List (String × String)) : Except ContextError ExecutionContext :=
  match ctx.outputs.lookup node_id with
  | some _ => Except.error ContextError.DuplicateWrite
  | none => Except.ok { ctx with outputs := (node_id, output) :: ctx.outputs }

/-- The node_ids of the calls in a sequence of `set_output` calls that
succeed, threading the context through the sequence. -/
def successfulWrites (ctx : ExecutionContext) :
    List (Nat × List (String × String)) → List Nat
  | [] => []
  | (n, out) :: rest =>
    match set_output ctx n out with
    | Except.error _ => successfulWrites ctx rest
    | Except.ok ctx2 => n :: successfulWrites ctx2 rest

theorem set_output_dup (ctx : ExecutionContext) (n : Nat)
    (out o : List (String × String)) (h : ctx.outputs.lookup n = some o) :
    set_output ctx n out = Except.error ContextError.DuplicateWrite := by
  unfold set_output
  rw [h]

theorem set_output_ok_lookup (ctx ctx2 : ExecutionContext) (n : Nat)
    (out : List (String × String)) (h : set_output ctx n out = Except.ok ctx2) :
    ctx.outputs.lookup n = none ∧ ctx2.outputs.lookup n = some out := by
  unfold set_output at h
  cases hl : ctx.outputs.lookup n with
  | some o => rw [hl] at h; exact absurd h (by simp)
  | none =>
    rw [hl] at h
    have : _ = ctx2 := Except.ok.inj h
    subst this
    exact ⟨rfl, by simp [List.lookup]⟩

theorem set_output_preserves (ctx ctx2 : ExecutionContext) (m : Nat)
    (out : List (String × String)) (h : set_output ctx m out = Except.ok ctx2)
    (n : Nat) (hne : n ≠ m) : ctx2.outputs.lookup n = ctx.outputs.lookup n := by
  unfold set_output at h
  cases hl : ctx.outputs.lookup m with
  | some o => rw [hl] at h; exact absurd h (by simp)
  | none =>
    rw [hl] at h
    have : _ = ctx2 := Except.ok.inj h
    subst this
    simp [List.lookup, beq_eq_false_iff_ne.mpr hne]

theorem not_mem_successfulWrites :
    ∀ (ws : List (Nat × List (String × String))) (ctx : ExecutionContext) (n : Nat),
      (∃ o, ctx.outputs.lookup n = some o) → n ∉ successfulWrites ctx ws := by
  intro ws
  induction ws with
  | nil => intro ctx n _ h; exact absurd h (List.not_mem_nil n)
  | cons w rest ih =>
    intro ctx n hsome hmem
    obtain ⟨o, ho⟩ := hsome
    obtain ⟨m, out⟩ := w
    simp only [successfulWrites] at hmem
    cases hset : set_output ctx m out with
    | error e =>
      rw [hset] at hmem
      exact ih ctx n ⟨o, ho⟩ hmem
    | ok ctx2 =>
      rw [hset] at hmem
      have hnm : n ≠ m := by
        intro he
        subst he
        have := (set_output_ok_lookup ctx ctx2 n out hset).1
        rw [this] at ho
        exact Option.noConfusion ho
      rcases List.mem_cons.mp hmem with he | ht
      · exact hnm he
      · have hpres := set_output_preserves ctx ctx2 m out hset n hnm
        exact ih ctx2 n ⟨o, hpres ▸ ho⟩ ht

theorem count_successfulWrites_le_one :
    ∀ (ws : List (Nat × List (String × String))) (ctx : ExecutionContext) (n : Nat),
      (successfulWrites ctx ws).count n ≤ 1 := by
  intro ws
  induction ws with
  | nil => intro ctx n; simp [successfulWrites]
  | cons w rest ih =>
    intro ctx n
    obtain ⟨m, out⟩ := w
    simp only [successfulWrites]
    cases hset : set_output ctx m out with
    | error e => exact ih ctx n
    | ok ctx2 =>
      by_cases hnm : n = m
      · subst hnm
        rw [List.count_cons_self]
        have hlook := (set_output_ok_lookup ctx ctx2 n out hset).2
        have hnot := not_mem_successfulWrites rest ctx2 n ⟨out, hlook⟩
        rw [List.count_eq_zero.mpr hnot]
      · rw [List.count_cons_of_ne hnm]
        exact ih ctx2 n

/-- A router mount of the FastAPI application: URL path root and tag. -/
structure RouterMount where
  pathRoot : String
  tag : String
deriving DecidableEq, Repr

/-- Translated from `backend/main.py` lines 47-50: the four
`app.include_router` calls, in source order, with their URL path roots
and tags. -/
def includedRouters : List RouterMount :=
  [{ pathRoot := "/api/documents", tag := "documents" },
    { pathRoot := "/api/workflows", tag := "workflows" },
    { pathRoot := "/api/chat", tag := "chat" },
    { pathRoot := "/api/components", tag := "components" }]

/-- The mapping returned by the root endpoint (`backend/main.py`
lines 53-59). -/
structure RootResponse where
  message : String
  version : String
  status : String
deriving DecidableEq, Repr

/-- Translated from `backend/main.py` lines 53-59: the `root` handler
returns a fixed mapping for any request. -/
def root (_ : Unit) : RootResponse :=
  { message := "Workflow Builder API", version := "1.0.0", status := "running" }

/-- The mapping returned by a healthy `/health` response
(`backend/main.py` lines 68-73). -/
structure HealthResponse where
  status : String
  database : String
  vector_store : String
  vector_store_stats : List (String × Nat)
deriving DecidableEq, Repr

/-- An HTTPException as raised by the handler: status code and detail
string. -/
structure HTTPExceptionModel where
  status_code : Nat
  detail : String
deriving DecidableEq, Repr

/-- Outcome of the `vector_store.get_collection_stats()` call observed
by the handler: a stats mapping, or an exception carrying a message. -/
inductive VectorStoreCall where
  | ok (stats : List (String × Nat))
  | raised (msg : String)
deriving DecidableEq, Repr

/-- Translated from `backend/main.py` lines 61-78: the `health_check`
handler — on a successful stats call it returns the healthy mapping; on
any exception it raises HTTPException(503) whose detail embeds the
exception message. -/
def health_check (r : VectorStoreCall) : Except HTTPExceptionModel HealthResponse :=
  match r with
  | VectorStoreCall.ok stats =>
    Except.ok
      { status := "healthy", database := "connected",
        vector_store := "connected", vector_store_stats := stats }
  | VectorStoreCall.raised msg =>
    Except.error { status_code := 503, detail := "Service unhealthy: " ++ msg }

theorem dependsOn_comp (deps : Nat → List Nat) :
    ∀ {a b c : Nat}, DependsOn deps a b → DependsOn deps b c → DependsOn deps a c := by
  intro a b c h1
  induction h1 with
  | direct hd => intro h2; exact DependsOn.trans hd h2
  | trans hd hdep ih => intro h2; exact DependsOn.trans hd (ih h2)

theorem pickReady_none (deps : Nat → List Nat) (done : List Nat) :
    ∀ (l : List Nat), pickReady deps done l = none →
      ∀ m ∈ l, ¬((deps m).all (fun d => done.contains d) = true) := by
  intro l
  induction l with
  | nil => intro _ m hm; exact absurd hm (List.not_mem_nil m)
  | cons n rest ih =>
    intro h m hm
    simp only [pickReady] at h
    by_cases hc : (deps n).all (fun d => done.contains d) = true
    · rw [if_pos hc] at h; exact absurd h (by simp)
    · rw [if_neg hc] at h
      rcases List.mem_cons.mp hm with he | ht
      · exact he ▸ hc
      · exact ih h m ht

theorem pickReady_isSome_of_ready (deps : Nat → List Nat) (done l : List Nat)
    (h : ∃ m ∈ l, (deps m).all (fun d => done.contains d) = true) :
    ∃ n, pickReady deps done l = some n := by
  cases hp : pickReady deps done l with
  | some n => exact ⟨n, rfl⟩
  | none =>
    obtain ⟨m, hm, hready⟩ := h
    exact absurd hready (pickReady_none deps done l hp m hm)

/-- If a dependency of the current descent node closes back into the
descent path, the graph has a cycle through that dependency. -/
theorem seen_dep_cycle (deps : Nat → List Nat) (c d : Nat) (seen : List Nat)
    (hd : d ∈ deps c) (hpath : ∀ s ∈ seen, s = c ∨ DependsOn deps s c)
    (hdseen : d ∈ seen) : DependsOn deps d d := by
  rcases hpath d hdseen with he | hdep
  · subst he
    exact DependsOn.direct hd
  · exact dependsOn_comp deps hdep (DependsOn.direct hd)

/-- No-infinite-descent: starting from any node of an acyclic,
dependency-closed remaining set and walking down unresolved
dependencies, a node with all dependencies resolved is reached. -/
theorem ready_exists_aux (deps : Nat → List Nat) (done R : List Nat)
    (hclo : ∀ m ∈ R, ∀ d ∈ deps m, d ∈ done ∨ d ∈ R)
    (hacyc : ∀ m ∈ R, ¬DependsOn deps m m) :
    ∀ (k : Nat) (seen : List Nat) (c : Nat),
      seen.Nodup → (∀ s ∈ seen, s ∈ R) → c ∈ seen →
      (∀ s ∈ seen, s = c ∨ DependsOn deps s c) →
      R.length ≤ seen.length + k →
      ∃ m ∈ R, ∀ d ∈ deps m, d ∈ done := by
  intro k
  induction k with
  | zero =>
    intro seen c hnd hsub hc hpath hlen
    by_cases hready : ∀ d ∈ deps c, d ∈ done
    · exact ⟨c, hsub c hc, hready⟩
    · exfalso
      push_neg at hready
      obtain ⟨d, hd, hdnot⟩ := hready
      have hdR : d ∈ R := by
        rcases hclo c (hsub c hc) d hd with h | h
        · exact absurd h hdnot
        · exact h
      by_cases hdseen : d ∈ seen
      · exact hacyc d hdR (seen_dep_cycle deps c d seen hd hpath hdseen)
      · have hnd2 : (d :: seen).Nodup := List.nodup_cons.mpr ⟨hdseen, hnd⟩
        have hsub2 : d :: seen ⊆ R := by
          intro s hs
          rcases List.mem_cons.mp hs with he | ht
          · exact he ▸ hdR
          · exact hsub s ht
        have hle : (d :: seen).length ≤ R.length :=
          (hnd2.subperm hsub2).length_le
        simp only [List.length_cons] at hle
        omega
  | succ k ih =>
    intro seen c hnd hsub hc hpath hlen
    by_cases hready : ∀ d ∈ deps c, d ∈ done
    · exact ⟨c, hsub c hc, hready⟩
    · push_neg at hready
      obtain ⟨d, hd, hdnot⟩ := hready
      have hdR : d ∈ R := by
        rcases hclo c (hsub c hc) d hd with h | h
        · exact absurd h hdnot
        · exact h
      by_cases hdseen : d ∈ seen
      · exact absurd (seen_dep_cycle deps c d seen hd hpath hdseen) (hacyc d hdR)
      · refine ih (d :: seen) d (List.nodup_cons.mpr ⟨hdseen, hnd⟩) ?_
          (List.mem_cons_self d seen) ?_ ?_
        · intro s hs
          rcases List.mem_cons.mp hs with he | ht
          · exact he ▸ hdR
          · exact hsub s ht
        · intro s hs
          rcases List.mem_cons.mp hs with he | ht
          · exact Or.inl he
          · rcases hpath s ht with he2 | hdep
            · exact Or.inr (he2 ▸ DependsOn.direct hd)
            · exact Or.inr (dependsOn_comp deps hdep (DependsOn.direct hd))
        · simp only [List.length_cons]
          omega

/-- A nonempty, dependency-closed, acyclic remaining set always
contains a ready node (all dependencies resolved). -/
theorem ready_exists (deps : Nat → List Nat) (done R : List Nat)
    (hclo : ∀ m ∈ R, ∀ d ∈ deps m, d ∈ done ∨ d ∈ R)
    (hacyc : ∀ m ∈ R, ¬DependsOn deps m m) (hne : R ≠ []) :
    ∃ m ∈ R, ∀ d ∈ deps m, d ∈ done := by
  obtain ⟨c, hc⟩ := List.exists_mem_of_ne_nil R hne
  refine ready_exists_aux deps done R hclo hacyc R.length [c] c (by simp)
    ?_ (by simp) (by simp) (by simp)
  intro s hs
  rcases List.mem_cons.mp hs with he | ht
  · exact he ▸ hc
  · exact absurd ht (List.not_mem_nil s)

/-- Completeness of Kahn's algorithm: with enough fuel, a duplicate-free,
dependency-closed, acyclic remaining set is emitted entirely. -/
theorem kahnAux_complete (deps : Nat → List Nat) :
    ∀ (fuel : Nat) (done remaining : List Nat),
      remaining.length ≤ fuel → remaining.Nodup →
      (∀ m ∈ remaining, ∀ d ∈ deps m, d ∈ done ∨ d ∈ remaining) →
      (∀ m ∈ remaining, ¬DependsOn deps m m) →
      ∀ x ∈ remaining, x ∈ kahnAux deps fuel done remaining := by
  intro fuel
  induction fuel with
  | zero =>
    intro done remaining hlen _ _ _ x hx
    have : remaining = [] := List.eq_nil_of_length_eq_zero (Nat.le_zero.mp hlen)
    rw [this] at hx
    exact absurd hx (List.not_mem_nil x)
  | succ fuel ih =>
    intro done remaining hlen hnd hclo hacyc x hx
    have hne : remaining ≠ [] := by
      intro he
      rw [he] at hx
      exact List.not_mem_nil x hx
    have hex : ∃ m ∈ remaining, (deps m).all (fun d => done.contains d) = true := by
      obtain ⟨m, hm, hready⟩ := ready_exists deps done remaining hclo hacyc hne
      exact ⟨m, hm, List.all_eq_true.mpr (fun d hd => List.elem_iff.mpr (hready d hd))⟩
    obtain ⟨n0, hp⟩ := pickReady_isSome_of_ready deps done remaining hex
    have hn0 : n0 ∈ remaining := (pickReady_spec deps done remaining n0 hp).1
    simp only [kahnAux]
    rw [hp]
    by_cases hxn : x = n0
    · exact hxn ▸ List.mem_cons_self n0 _
    · apply List.mem_cons_of_mem
      have hpos : 0 < remaining.length := List.length_pos_of_mem hn0
      refine ih (done ++ [n0]) (remaining.erase n0) ?_ (hnd.erase n0) ?_ ?_ x
        ((hnd.mem_erase_iff).mpr ⟨hxn, hx⟩)
      · rw [List.length_erase_of_mem hn0]
        omega
      · intro m hm d hd
        have hmrem : m ∈ remaining := List.mem_of_mem_erase hm
        rcases hclo m hmrem d hd with h | h
        · exact Or.inl (List.mem_append.mpr (Or.inl h))
        · by_cases hdn : d = n0
          · exact Or.inl (List.mem_append.mpr (Or.inr (by simp [hdn])))
          · exact Or.inr ((hnd.mem_erase_iff).mpr ⟨hdn, h⟩)
      · intro m hm
        exact hacyc m (List.mem_of_mem_erase hm)

/-- The induced dependency map only mentions existing node_ids. -/
theorem inducedDeps_subset (wf : WorkflowDefinition) :
    ∀ (i d : Nat), d ∈ inducedDeps wf i → d ∈ nodeIds wf := by
  intro i d hd
  unfold inducedDeps at hd
  cases hf : wf.nodes.find? (fun m => m.node_id == i) with
  | none => rw [hf] at hd; exact absurd hd (List.not_mem_nil d)
  | some m =>
    rw [hf] at hd
    obtain ⟨p, _, hpe⟩ := List.mem_filterMap.mp hd
    cases hb : p.2 with
    | edge src oname =>
      rw [hb] at hpe
      dsimp only at hpe
      by_cases hcon : (nodeIds wf).contains src = true
      · rw [if_pos hcon] at hpe
        have : src = d := Option.some.inj hpe
        exact this ▸ List.elem_iff.mp hcon
      · rw [if_neg hcon] at hpe
        exact absurd hpe (by simp)
    | literal v =>
      rw [hb] at hpe
      exact absurd hpe (by simp)

/-- The scheduler emits every node of a duplicate-free, acyclic
workflow: Kahn's algorithm is complete on valid definitions. -/
theorem schedule_complete (wf : WorkflowDefinition)
    (hnd : (nodeIds wf).Nodup)
    (hacyc : ∀ m ∈ nodeIds wf, ¬DependsOn (inducedDeps wf) m m) :
    ∀ x ∈ nodeIds wf, x ∈ schedule (inducedDeps wf) (nodeIds wf) :=
  kahnAux_complete (inducedDeps wf) (nodeIds wf).length [] (nodeIds wf)
    (Nat.le_refl _) hnd
    (fun m _ d hd => Or.inr (inducedDeps_subset wf m d hd)) hacyc

theorem validate_ok_no_violations (reg : Registry) (wf : WorkflowDefinition)
    (plan : ExecutionPlan) (h : validate reg wf = Except.ok plan) :
    collectViolations reg wf = [] := by
  unfold validate at h
  cases hc : collectViolations reg wf with
  | nil => rfl
  | cons v vs => rw [hc] at h; exact absurd h (by simp)

theorem detectCycle_none_of_no_violations (reg : Registry) (wf : WorkflowDefinition)
    (h : collectViolations reg wf = []) :
    detectCycle (inducedDeps wf) (nodeIds wf) = none := by
  unfold collectViolations at h
  have h4 : checkCycles wf = [] := (List.append_eq_nil.mp h).2
  unfold checkCycles at h4
  cases hd : detectCycle (inducedDeps wf) (nodeIds wf) with
  | none => rfl
  | some p => rw [hd] at h4; exact absurd h4 (by simp)

/-- Concrete descriptor and registry used as witnesses: a "chat"
component with one required input "text" and one output "out". -/
def chatDesc : ComponentDescriptor :=
  { type_name := "chat",
    input_schema := [{ input_name := "text", required := true }],
    output_schema := ["out"] }

def chatReg : Registry := [chatDesc]

/-- A two-node workflow whose declared inputs form the cycle 1 ⇄ 2. -/
def cycWf : WorkflowDefinition :=
  { id := 9, name := "cyclic",
    nodes :=
      [{ node_id := 1, component_type := "chat", literal_config := [],
          declared_inputs := [("text", InputBinding.edge 2 "out")] },
        { node_id := 2, component_type := "chat", literal_config := [],
          declared_inputs := [("text", InputBinding.edge 1 "out")] }] }

/-- A workflow with an unknown component type (node 5) and a missing
required input (node 6). -/
def badWf : WorkflowDefinition :=
  { id := 3, name := "bad",
    nodes :=
      [{ node_id := 5, component_type := "mystery", literal_config := [],
          declared_inputs := [] },
        { node_id := 6, component_type := "chat", literal_config := [],
          declared_inputs := [] }] }

/-- A valid acyclic two-node workflow: node 1 feeds node 2. -/
def goodWf : WorkflowDefinition :=
  { id := 4, name := "good",
    nodes :=
      [{ node_id := 1, component_type := "chat", literal_config := [],
          declared_inputs := [("text", InputBinding.literal "hello")] },
        { node_id := 2, component_type := "chat", literal_config := [],
          declared_inputs := [("text", InputBinding.edge 1 "out")] }] }

/-- The RunResult produced by running `goodWf` with an all-succeeding
runner. -/
def resGood : RunResult :=
  { run_id := 0, overall_status := RunStatus.SUCCEEDED,
    node_states := [(1, NodeState.SUCCEEDED), (2, NodeState.SUCCEEDED)] }

/-- Fresh and once-written execution contexts used as witnesses. -/
def ctx0 : ExecutionContext :=
  { run_id := 0, workflow_id := 0, node_states := [], outputs := [] }

def ctx1 : ExecutionContext :=
  { run_id := 0, workflow_id := 0, node_states := [], outputs := [(7, [])] }

/-- Claim C1: on a node failure every transitive dependent of the failed
node is marked SKIPPED and unrelated branches are not aborted (a node
whose own execution and all of whose ancestors' executions succeed is
SUCCEEDED); in the concrete chain A→B→C (0→1→2) with independent D (3),
when B fails, C is SKIPPED, D is SUCCEEDED, and the overall status is
PARTIAL. -/
theorem claim_c1_partial_failure_propagation :
    (∀ (deps : Nat → List Nat) (succ : Nat → Bool) (order : List Nat) (n f : Nat),
      Topo deps order → n ∈ order → DependsOn deps n f →
      executeWorkflow deps succ order f ≠ NodeState.SUCCEEDED →
      executeWorkflow deps succ order n = NodeState.SKIPPED) ∧
    (∀ (deps : Nat → List Nat) (succ : Nat → Bool) (order : List Nat) (n : Nat),
      Topo deps order → n ∈ order → succ n = true →
      (∀ f, DependsOn deps n f → succ f = true) →
      executeWorkflow deps succ order n = NodeState.SUCCEEDED) ∧
    (executeWorkflow chainDeps chainSucc (schedule chainDeps [0, 1, 2, 3]) 1 =
        NodeState.FAILED ∧
      executeWorkflow chainDeps chainSucc (schedule chainDeps [0, 1, 2, 3]) 2 =
        NodeState.SKIPPED ∧
      executeWorkflow chainDeps chainSucc (schedule chainDeps [0, 1, 2, 3]) 3 =
        NodeState.SUCCEEDED ∧
      overallStatus chainDeps (schedule chainDeps [0, 1, 2, 3])
          (executeWorkflow chainDeps chainSucc (schedule chainDeps [0, 1, 2, 3])) =
        RunStatus.PARTIAL_RESULT) := by
  refine ⟨?_, ?_, by decide, by decide, by decide, by decide⟩
  · intro deps succ order n f ht hn hdep hf
    exact final_skipped_of_bad_ancestor deps succ order ht n f hdep hn hf
  · intro deps succ order n ht hn hs hanc
    exact final_succeeded_of_ok_branch deps succ order ht (order.indexOf n) n rfl
      hn hs hanc

/-- Witness for C1 at the concrete chain workflow: node 2 is skipped via
the failed ancestor 1, and the independent node 3 succeeds. -/
theorem claim_c1_witness :
    executeWorkflow chainDeps chainSucc [0, 1, 2, 3] 2 = NodeState.SKIPPED ∧
      executeWorkflow chainDeps chainSucc [0, 1, 2, 3] 3 = NodeState.SUCCEEDED := by
  constructor
  · exact claim_c1_partial_failure_propagation.1 chainDeps chainSucc [0, 1, 2, 3] 2 1
      ⟨by decide, by decide⟩ (by decide) (DependsOn.direct (by decide)) (by decide)
  · refine claim_c1_partial_failure_propagation.2.1 chainDeps chainSucc [0, 1, 2, 3] 3
      ⟨by decide, by decide⟩ (by decide) (by decide) ?_
    intro f hf
    cases hf with
    | direct hd => simp [chainDeps] at hd
    | trans hd hdep => simp [chainDeps] at hd

/-- Claim C2: for every dependency map and duplicate-free node sequence,
the Scheduler's emitted order is a valid topological ordering — no node
appears in the order before any node it depends on. -/
theorem claim_c2_scheduler_topological (deps : Nat → List Nat) (nodes : List Nat)
    (hnd : nodes.Nodup) : Topo deps (schedule deps nodes) :=
  schedule_topological deps nodes hnd

/-- Witness for C2 at the concrete chain workflow. -/
theorem claim_c2_witness : Topo chainDeps (schedule chainDeps [0, 1, 2, 3]) :=
  claim_c2_scheduler_topological chainDeps [0, 1, 2, 3] (by decide)

/-- Claim C3: for every WorkflowDefinition whose induced dependency
graph contains a cycle, the Validator reports a CyclicDependency
violation, validation yields an error (no ExecutionPlan), and the run
pipeline never starts a run. -/
theorem claim_c3_cycle_rejected (reg : Registry) (wf : WorkflowDefinition)
    (hcyc : ∃ n, n ∈ nodeIds wf ∧ DependsOn (inducedDeps wf) n n) :
    ∃ p, Violation.CyclicDependency p ∈ collectViolations reg wf ∧
      validate reg wf = Except.error (collectViolations reg wf) ∧
      ∀ (succ : Nat → Bool) (rid : Nat),
        runWorkflow reg wf succ rid = Except.error (collectViolations reg wf) := by
  obtain ⟨p, hp⟩ := checkCycles_of_cycle wf hcyc
  have hmem : Violation.CyclicDependency p ∈ collectViolations reg wf := by
    unfold collectViolations
    refine List.mem_append.mpr (Or.inr ?_)
    rw [hp]
    exact List.mem_cons_self _ _
  have hne : collectViolations reg wf ≠ [] := by
    intro he
    rw [he] at hmem
    exact List.not_mem_nil _ hmem
  exact ⟨p, hmem, validate_error_of_violations reg wf hne, fun succ rid =>
    runWorkflow_error_of_validate reg wf succ rid _
      (validate_error_of_violations reg wf hne)⟩

/-- Witness for C3 at the concrete cyclic workflow 1 ⇄ 2. -/
theorem claim_c3_witness :
    ∃ p, Violation.CyclicDependency p ∈ collectViolations chatReg cycWf ∧
      validate chatReg cycWf = Except.error (collectViolations chatReg cycWf) ∧
      ∀ (succ : Nat → Bool) (rid : Nat),
        runWorkflow chatReg cycWf succ rid =
          Except.error (collectViolations chatReg cycWf) :=
  claim_c3_cycle_rejected chatReg cycWf
    ⟨1, by decide,
      @DependsOn.trans (inducedDeps cycWf) 1 2 1 (by decide)
        (@DependsOn.direct (inducedDeps cycWf) 2 1 (by decide))⟩

/-- Claim C4: the Validator either produces the ExecutionPlan or errors
with the full accumulated violation list, and that list contains every
unknown-component-type, dangling-edge and missing-required-input
violation present in the definition, plus a CyclicDependency when the
induced graph is cyclic — not merely the first violation found. -/
theorem claim_c4_validation_exhaustive (reg : Registry) (wf : WorkflowDefinition) :
    (∀ n ∈ wf.nodes, resolve reg n.component_type = none →
      Violation.UnknownComponentType n.node_id ∈ collectViolations reg wf) ∧
    (∀ n ∈ wf.nodes, ∀ p ∈ n.declared_inputs, edgeDangles reg wf p.2 = true →
      Violation.DanglingEdge n.node_id p.1 ∈ collectViolations reg wf) ∧
    (∀ n ∈ wf.nodes, ∀ desc, resolve reg n.component_type = some desc →
      ∀ e ∈ desc.input_schema, e.required = true →
      inputSatisfied n e.input_name = false →
      Violation.MissingRequiredInput n.node_id e.input_name ∈
        collectViolations reg wf) ∧
    ((∃ n, n ∈ nodeIds wf ∧ DependsOn (inducedDeps wf) n n) →
      ∃ p, Violation.CyclicDependency p ∈ collectViolations reg wf) ∧
    (validate reg wf = Except.ok (buildPlan wf) ∨
      validate reg wf = Except.error (collectViolations reg wf)) := by
  refine ⟨?_, ?_, ?_, ?_, validate_cases reg wf⟩
  · intro n hn hres
    unfold collectViolations
    exact List.mem_append.mpr (Or.inl (List.mem_append.mpr (Or.inl
      (List.mem_append.mpr (Or.inl
        (checkComponentTypes_complete reg wf n hn hres))))))
  · intro n hn p hp hdang
    unfold collectViolations
    exact List.mem_append.mpr (Or.inl (List.mem_append.mpr (Or.inl
      (List.mem_append.mpr (Or.inr
        (checkDanglingEdges_complete reg wf n hn p hp hdang))))))
  · intro n hn desc hres e he hreq hsat
    unfold collectViolations
    exact List.mem_append.mpr (Or.inl (List.mem_append.mpr (Or.inr
      (checkRequiredInputs_complete reg wf n hn desc hres e he hreq hsat))))
  · intro hcyc
    obtain ⟨p, hp⟩ := checkCycles_of_cycle wf hcyc
    refine ⟨p, ?_⟩
    unfold collectViolations
    refine List.mem_append.mpr (Or.inr ?_)
    rw [hp]
    exact List.mem_cons_self _ _

/-- Witness for C4: in a workflow with both an unknown component type
(node 5) and a missing required input (node 6), both violations appear
in the accumulated list. -/
theorem claim_c4_witness :
    Violation.UnknownComponentType 5 ∈ collectViolations chatReg badWf ∧
      Violation.MissingRequiredInput 6 "text" ∈ collectViolations chatReg badWf :=
  ⟨(claim_c4_validation_exhaustive chatReg badWf).1
      { node_id := 5, component_type := "mystery", literal_config := [],
        declared_inputs := [] } (by decide) (by decide),
    (claim_c4_validation_exhaustive chatReg badWf).2.2.1
      { node_id := 6, component_type := "chat", literal_config := [],
        declared_inputs := [] } (by decide) chatDesc (by decide)
      { input_name := "text", required := true } (by decide) (by decide) (by decide)⟩

/-- Claim C5: for every run of the full pipeline that produces a
RunResult (over a workflow with unique node_ids, as the spec's data
model requires), each node is dispatched to the runner at most once, and
every node_id of the workflow appears in the final RunResult's node
states exactly once, in a terminal state (SUCCEEDED, FAILED or
SKIPPED) — the scheduler's emitted order covers the whole workflow. -/
theorem claim_c5_at_most_once (reg : Registry) (wf : WorkflowDefinition)
    (succ : Nat → Bool) (rid : Nat) (res : RunResult)
    (hnd : (nodeIds wf).Nodup)
    (hrun : runWorkflow reg wf succ rid = Except.ok res) :
    (∀ n, (runTrace (inducedDeps wf) succ (fun _ => NodeState.PENDING)
        (schedule (inducedDeps wf) (nodeIds wf))).count n ≤ 1) ∧
    (∀ n ∈ nodeIds wf,
      (res.node_states.filter (fun p => p.1 == n)).length = 1) ∧
    (∀ p ∈ res.node_states, isTerminal p.2 = true) := by
  unfold runWorkflow at hrun
  cases hv : validate reg wf with
  | error vs => rw [hv] at hrun; exact absurd hrun (by simp)
  | ok plan =>
    rw [hv] at hrun
    have hres : res =
        { run_id := rid,
          overall_status := overallStatus (inducedDeps wf)
            (schedule (inducedDeps wf) (nodeIds wf))
            (executeWorkflow (inducedDeps wf) succ
              (schedule (inducedDeps wf) (nodeIds wf))),
          node_states := (schedule (inducedDeps wf) (nodeIds wf)).map
            (fun n => (n, executeWorkflow (inducedDeps wf) succ
              (schedule (inducedDeps wf) (nodeIds wf)) n)) } :=
      (Except.ok.inj hrun).symm
    subst hres
    have hordnd : (schedule (inducedDeps wf) (nodeIds wf)).Nodup :=
      kahnAux_nodup (inducedDeps wf) (nodeIds wf).length [] (nodeIds wf) hnd
    have hacyc : ∀ m ∈ nodeIds wf, ¬DependsOn (inducedDeps wf) m m :=
      detectCycle_none_acyclic (inducedDeps wf) (nodeIds wf)
        (detectCycle_none_of_no_violations reg wf
          (validate_ok_no_violations reg wf plan hv))
    refine ⟨?_, ?_, ?_⟩
    · intro n
      have hsub := runTrace_sublist (inducedDeps wf) succ
        (schedule (inducedDeps wf) (nodeIds wf)) (fun _ => NodeState.PENDING)
      exact List.nodup_iff_count_le_one.mp (List.Nodup.sublist hsub hordnd) n
    · intro n hnmem
      exact map_pair_filter_fst
        (executeWorkflow (inducedDeps wf) succ
          (schedule (inducedDeps wf) (nodeIds wf)))
        (schedule (inducedDeps wf) (nodeIds wf)) n hordnd
        (schedule_complete wf hnd hacyc n hnmem)
    · intro p hp
      obtain ⟨m, hm, hpe⟩ := List.mem_map.mp hp
      subst hpe
      exact runNodes_terminal (inducedDeps wf) succ
        (schedule (inducedDeps wf) (nodeIds wf)) _ m hm

/-- Witness for C5 at a concrete valid two-node workflow: its actual
RunResult records both node_ids exactly once, in terminal states. -/
theorem claim_c5_witness :
    (∀ n, (runTrace (inducedDeps goodWf) (fun _ => true) (fun _ => NodeState.PENDING)
        (schedule (inducedDeps goodWf) (nodeIds goodWf))).count n ≤ 1) ∧
    (∀ n ∈ nodeIds goodWf,
      (resGood.node_states.filter (fun p => p.1 == n)).length = 1) ∧
    (∀ p ∈ resGood.node_states, isTerminal p.2 = true) :=
  claim_c5_at_most_once chatReg goodWf (fun _ => true) 0 resGood (by decide) rfl

/-- Claim C6: validation is a pure function of the WorkflowDefinition —
validating the same definition twice yields the same violations and the
same result; in this pure embedding the equality is definitional. -/
theorem claim_c6_validation_idempotent (reg : Registry) (wf : WorkflowDefinition) :
    collectViolations reg wf = collectViolations reg wf ∧
      validate reg wf = validate reg wf :=
  ⟨rfl, rfl⟩

/-- Witness for C6 at the concrete cyclic workflow. -/
theorem claim_c6_witness :
    collectViolations chatReg cycWf = collectViolations chatReg cycWf ∧
      validate chatReg cycWf = validate chatReg cycWf :=
  claim_c6_validation_idempotent chatReg cycWf

/-- Claim C7: `set_output` succeeds at most once per node_id — once an
output is recorded for a node_id, every subsequent call with that
node_id fails with DuplicateWrite, and along any sequence of calls at
most one call per node_id succeeds. -/
theorem claim_c7_set_output_once (ctx ctx2 : ExecutionContext) (n : Nat)
    (out out2 o : List (String × String)) :
    (ctx.outputs.lookup n = some o →
      set_output ctx n out = Except.error ContextError.DuplicateWrite) ∧
    (set_output ctx n out = Except.ok ctx2 →
      ctx2.outputs.lookup n = some out ∧
      set_output ctx2 n out2 = Except.error ContextError.DuplicateWrite) ∧
    (∀ ws, (successfulWrites ctx ws).count n ≤ 1) := by
  refine ⟨fun h => set_output_dup ctx n out o h, fun h => ?_,
    fun ws => count_successfulWrites_le_one ws ctx n⟩
  have hlook := (set_output_ok_lookup ctx ctx2 n out h).2
  exact ⟨hlook, set_output_dup ctx2 n out2 out hlook⟩

/-- Witness for C7: after a first successful write for node 7, a second
write for node 7 fails with DuplicateWrite. -/
theorem claim_c7_witness :
    ctx1.outputs.lookup 7 = some [] ∧
      set_output ctx1 7 [] = Except.error ContextError.DuplicateWrite :=
  (claim_c7_set_output_once ctx0 ctx1 7 [] [] []).2.1 rfl

/-- Claim C8: the application mounts exactly four routers — documents
under /api/documents, workflows under /api/workflows, chat under
/api/chat and the component catalog under /api/components. -/
theorem claim_c8_router_mounts :
    includedRouters.length = 4 ∧
      includedRouters.map (fun r => r.pathRoot) =
        ["/api/documents", "/api/workflows", "/api/chat", "/api/components"] ∧
      includedRouters.map (fun r => r.tag) =
        ["documents", "workflows", "chat", "components"] :=
  ⟨rfl, rfl, rfl⟩

/-- Claim C9: the health handler returns the healthy mapping whenever
the vector-store stats call returns, and wraps any raised exception into
an HTTPException with status 503 whose detail embeds the message — the
exception never propagates unwrapped. -/
theorem claim_c9_health_check :
    (∀ stats, health_check (VectorStoreCall.ok stats) =
      Except.ok
        { status := "healthy", database := "connected",
          vector_store := "connected", vector_store_stats := stats }) ∧
    (∀ msg, health_check (VectorStoreCall.raised msg) =
      Except.error { status_code := 503, detail := "Service unhealthy: " ++ msg }) :=
  ⟨fun _ => rfl, fun _ => rfl⟩

/-- Claim C10: the root endpoint handler is a constant function — it
returns exactly the fixed message/version/status mapping for every
request. -/
theorem claim_c10_root_constant :
    ∀ u : Unit,
      root u =
        { message := "Workflow Builder API", version := "1.0.0",
          status := "running" } :=
  fun _ => rfl

end WorkflowBuilder
